import Mathlib

/-
Verification of the NexusBridge collection installer (Nexus-Collection-To-MO2-Bridge)
against its natural-language specification.

Shallow embedding conventions:
* C++ `std::string` is modelled as `List Char` (`Str`), and `std::tolower`
  (applied to unsigned chars) is modelled by ASCII lower-casing.
* Filesystem state consumed by a function (directory listings, file sizes,
  existence checks) is passed in explicitly as data.
* Machine integers (`int`, `long long`) are modelled as `Int`; no arithmetic
  in the modelled paths comes near overflow.
-/

namespace NexusBridge

abbrev Str := List Char

/-- ASCII lower-casing of one character, modelling `std::tolower` on the
byte values that occur in mod metadata. -/
def lowerChar (c : Char) : Char :=
  if 'A' ≤ c ∧ c ≤ 'Z' then Char.ofNat (c.toNat + 32) else c

/-- Lower-casing of a whole string (the ubiquitous `std::transform` +
`std::tolower` idiom of the source). -/
def lowerStr (s : Str) : Str := s.map lowerChar

/-- Case-insensitive string equality, from `FomodInstaller::iequals`:
equal length and per-character `tolower` comparison, which is exactly
equality of the lower-cased strings. -/
def iequals (a b : Str) : Bool := lowerStr a == lowerStr b

-- ===========================================================================
-- sanitizeFolderName  (main.cpp)
-- ===========================================================================

/-- Character class replaced by `_` in `sanitizeFolderName`. -/
def badFolderChar (c : Char) : Bool :=
  c == '/' || c == '\\' || c == ':' || c == '*' || c == '?' || c == '"' ||
  c == '<' || c == '>' || c == '|'

/-- Characters popped from the end of the sanitised name. -/
def trailingJunk (c : Char) : Bool := c == ' ' || c == '.'

/-- Per-character replacement step of `sanitizeFolderName`. -/
def sanChar (c : Char) : Char := if badFolderChar c then '_' else c

/-- Model of `sanitizeFolderName`: each problematic character becomes `_`
(the per-character loop), then the `pop_back` loop removes the longest
suffix of spaces and dots (expressed as reverse / dropWhile / reverse). -/
def sanitizeFolderName (name : Str) : Str :=
  ((name.map sanChar).reverse.dropWhile trailingJunk).reverse

-- ===========================================================================
-- FOMOD dependency evaluation  (fomod_installer.cpp)
-- ===========================================================================

/-- One `<flagDependency flag=... value=...>` leaf. -/
structure FlagDep where
  flag : Str
  value : Str

/-- A `<dependencies operator=...>` element.  Matching the XML walk of the
source, the `flagDependency` children and the nested `dependencies`
children are kept in separate lists (the source iterates all of the former
before all of the latter). -/
inductive DepTree where
  | node (op : Str) (flagDeps : List FlagDep) (nested : List DepTree)

/-- Flag map collected from selected plugins (`std::map<string,string>`,
case-sensitive keys); lookup returns the stored value, if any. -/
def lookupFlag (flags : List (Str × Str)) (k : Str) : Option Str :=
  (flags.find? (fun p => p.1 == k)).map (fun p => p.2)

/-- Model of `checkFlagDependency`: the flag must be set and its value must
equal the required value case-insensitively. -/
def checkFlagDependency (flags : List (Str × Str)) (fd : FlagDep) : Bool :=
  match lookupFlag flags fd.flag with
  | none => false
  | some v => iequals v fd.value

/-- Model of `evaluateDependencies`.  The source walks the children with
early returns: under `And` any unsatisfied child returns `false` (so the
fall-through returns `true`, i.e. a conjunction over all children); under
`Or` any satisfied child returns `true`, and the fall-through returns
`isAnd || !hasAny`, which for `Or` is `!hasAny` (true exactly when there
were no children at all).  `hasAny` is set by either loop, so it is the
non-emptiness of the two child lists. -/
def evaluateDependencies (flags : List (Str × Str)) : DepTree → Bool
  | .node op fds nested =>
    let isAnd := op.isEmpty || iequals op "And".toList
    let hasAny := !fds.isEmpty || !nested.isEmpty
    if isAnd then
      fds.all (checkFlagDependency flags) &&
        nested.attach.all (fun d => evaluateDependencies flags d.1)
    else
      fds.any (checkFlagDependency flags) ||
        nested.attach.any (fun d => evaluateDependencies flags d.1) ||
        !hasAny
  termination_by t => sizeOf t
  decreasing_by
    all_goals
      have hm := List.sizeOf_lt_of_mem d.2
      simp [DepTree.node.sizeOf_spec]
      omega

-- ===========================================================================
-- FomodChoices  (fomod_installer.cpp)
-- ===========================================================================

/-- One selected option of a group (`FomodChoices::Choice`). -/
structure FomodChoice where
  name : Str
  idx : Int

/-- One group of a step (`FomodChoices::Group`). -/
structure FomodGroup where
  name : Str
  choices : List FomodChoice

/-- One install step (`FomodChoices::Step`). -/
structure FomodStep where
  name : Str
  groups : List FomodGroup

/-- The descriptor-supplied choice store (`FomodChoices`). -/
structure FomodChoices where
  steps : List FomodStep

/-- Model of `FomodChoices::getSelectedOptions`: the triple nested loop
over steps matching `stepName`, their groups matching `groupName`, and
those groups' choices.  The source inserts the names into a
`std::set<std::string>`; we collect the inserted names in iteration order
(set membership and list membership coincide). -/
def getSelectedOptions (c : FomodChoices) (stepName groupName : Str) :
    List Str :=
  (c.steps.filter (fun st => iequals st.name stepName)).flatMap (fun st =>
    (st.groups.filter (fun g => iequals g.name groupName)).flatMap (fun g =>
      g.choices.map (fun ch => ch.name)))

/-- Model of the selection test inside `FomodInstaller::process` (the loop
over `selectedOptions` comparing each entry to the plugin name with
`iequals`). -/
def pluginIsSelected (c : FomodChoices) (stepName groupName pluginName : Str) :
    Bool :=
  (getSelectedOptions c stepName groupName).any (fun sel =>
    iequals sel pluginName)

-- ===========================================================================
-- Phase 1 archive scan  (main.cpp, Phase 1)
-- ===========================================================================

/-- Decimal rendering of an `int`, for the `std::to_string` calls. -/
def intToStr (n : Int) : Str := (toString n).toList

/-- One entry of the downloads directory: file name and size, in the
enumeration order of `fs::directory_iterator`. -/
structure DirEntry where
  name : Str
  size : Int
deriving DecidableEq

/-- Model of `std::string::find(needle) != npos` (substring containment). -/
def containsSub (hay needle : Str) : Bool :=
  (List.range (hay.length + 1)).any (fun i => needle.isPrefixOf (hay.drop i))

/-- Model of `std::string::find(needle)`: index of the first occurrence. -/
def findSub (hay needle : Str) : Option Nat :=
  (List.range (hay.length + 1)).find? (fun i => needle.isPrefixOf (hay.drop i))

/-- The `"-" + std::to_string(mod.modId) + "-"` pattern of the scan. -/
def modIdPatternOf (modId : Int) : Str :=
  '-' :: (intToStr modId ++ ['-'])

/-- The literal `"creation club - "` searched for by reuse rule 2. -/
def ccPrefixStr : Str := "creation club - ".toList

/-- Reuse rule 1: the (lower-cased) file name begins with
`logicalFilename + "-" + modId + "-"`, only checked when the logical
filename is non-empty. -/
def rule1Matches (logicalFilename : Str) (modId : Int) (e : DirEntry) :
    Bool :=
  let ll := lowerStr logicalFilename
  !ll.isEmpty &&
    (lowerStr (ll ++ modIdPatternOf modId)).isPrefixOf (lowerStr e.name)

/-- Reuse rule 2: as rule 1 but with the first occurrence of
`"creation club - "` removed from the logical filename. -/
def rule2Matches (logicalFilename : Str) (modId : Int) (e : DirEntry) :
    Bool :=
  let ll := lowerStr logicalFilename
  !ll.isEmpty &&
    (match findSub ll ccPrefixStr with
     | some p =>
       ((ll.take p ++ ll.drop (p + ccPrefixStr.length)) ++
         modIdPatternOf modId).isPrefixOf (lowerStr e.name)
     | none => false)

/-- The rule-3/rule-4 containment test: the original-case file name
contains `-modId-`. -/
def entryContainsModId (modId : Int) (e : DirEntry) : Bool :=
  containsSub e.name (modIdPatternOf modId)

/-- Reuse rule 3: contains `-modId-` and the size equals the expected
size (only when an expected size is present). -/
def rule3Matches (modId : Int) (expectedSize : Int) (e : DirEntry) : Bool :=
  entryContainsModId modId e && decide (0 < expectedSize) &&
    (e.size == expectedSize)

/-- Which reuse rule accepted an archive (instrumentation of the scan;
the program itself only keeps the chosen path). -/
inductive ReuseRule where
  | logicalStart
  | ccStart
  | sizeExact
  | fallbackRule
deriving DecidableEq

/-- The archive-reuse scan loop over the downloads directory (main.cpp
Phase 1, Nexus branch): each entry is tested against rules 1, 2 and 3 in
that order with an early `break` on success; an entry containing
`-modId-` that fails the size test is remembered in `fallbackMatch` the
first time; after the loop the fallback, if any, is used. -/
def scanLoop (logicalFilename : Str) (modId : Int) (expectedSize : Int) :
    List DirEntry → Option DirEntry → Option (DirEntry × ReuseRule)
  | [], none => none
  | [], some fb => some (fb, ReuseRule.fallbackRule)
  | e :: rest, fb =>
    if rule1Matches logicalFilename modId e then
      some (e, ReuseRule.logicalStart)
    else if rule2Matches logicalFilename modId e then
      some (e, ReuseRule.ccStart)
    else if rule3Matches modId expectedSize e then
      some (e, ReuseRule.sizeExact)
    else
      let fb' := if entryContainsModId modId e && fb.isNone then some e
        else fb
      scanLoop logicalFilename modId expectedSize rest fb'

/-- The archive-reuse scan with the accepting rule reported. -/
def findExistingArchiveT (entries : List DirEntry) (logicalFilename : Str)
    (modId : Int) (expectedSize : Int) : Option (DirEntry × ReuseRule) :=
  scanLoop logicalFilename modId expectedSize entries none

/-- The archive chosen for reuse by the Phase-1 scan, if any (`none`
means the mod gets a DownloadTask). -/
def findExistingArchive (entries : List DirEntry) (logicalFilename : Str)
    (modId : Int) (expectedSize : Int) : Option DirEntry :=
  (findExistingArchiveT entries logicalFilename modId expectedSize).map
    (fun p => p.1)

/-- A file matching any of the three immediately-accepting rules. -/
def matchesPriorityRule (logicalFilename : Str) (modId : Int)
    (expectedSize : Int) (e : DirEntry) : Bool :=
  rule1Matches logicalFilename modId e ||
    rule2Matches logicalFilename modId e ||
    rule3Matches modId expectedSize e

-- ===========================================================================
-- Phase 1 scan loop  (main.cpp, first pass over collection.mods)
-- ===========================================================================

/-- The slice of `ModInfo` consulted by the Phase-1 scan.  `modId` and
`fileId` default to `-1` in `CollectionParser::parse` when absent. -/
structure ScanModInfo where
  name : Str
  logicalFilename : Str
  modId : Int
  fileId : Int
  fileSize : Int
  sourceType : Str
  directUrl : Str

/-- A `DownloadTask` as filled in by the scan (URL/dest/filename stay
default-empty for Nexus tasks, as in the source). -/
structure DownloadTaskM where
  url : Str
  destPath : Str
  filename : Str
  modName : Str
  fileSize : Int
  modId : Int
  fileId : Int
  isDirectDownload : Bool
  modIndex : Nat

/-- An `InstallTask` reference (index into `collection.mods` plus archive
path), as built from `modArchivePaths` before Phase 2. -/
structure InstallTaskM where
  index : Nat
  archivePath : Str

/-- The filesystem facts the scan consults: whether a destination mod
folder already exists non-empty (keyed by folder name), whether a
direct-download archive exists with non-zero size (keyed by file name),
and the downloads-directory listing. -/
structure ScanFs where
  destNonempty : Str → Bool
  archiveReusable : Str → Bool
  downloads : List DirEntry

/-- Mutable driver state touched by the scan: `skipped`, the
`mod.folderName` / `modFolderNames` assignments, `modArchivePaths`
(archive file name per mod index) and `downloadTasks`. -/
structure ScanState where
  skipped : Nat
  folderNames : List (Nat × Str)
  archives : List (Nat × Str)
  downloadTasks : List DownloadTaskM

/-- The characters after the last `/` of a URL, if the URL contains one
(`rfind` + `substr` in the source). -/
def afterLastSlash (url : Str) : Option Str :=
  if url.contains '/' then some (url.reverse.takeWhile (fun c => c ≠ '/')).reverse
  else none

/-- The folder name the scan assigns to a mod. -/
def folderNameFor (mod : ScanModInfo) (isDirect : Bool) : Str :=
  if isDirect then sanitizeFolderName mod.name
  else
    sanitizeFolderName
        (if mod.logicalFilename.isEmpty then mod.name
         else mod.logicalFilename) ++
      ('-' :: intToStr mod.modId) ++ ('-' :: intToStr mod.fileId)

/-- The `isDirectDownload` test of the scan loop. -/
def isDirectOf (mod : ScanModInfo) : Bool :=
  mod.sourceType == "direct".toList && !mod.directUrl.isEmpty

/-- The file name chosen for a direct download (basename of the URL, or
`name + ".7z"` when the URL has no slash). -/
def directFilename (mod : ScanModInfo) : Str :=
  match afterLastSlash mod.directUrl with
  | some f => f
  | none => mod.name ++ ".7z".toList

/-- One iteration of the Phase-1 scan loop for mod index `i`.  Mirrors
main.cpp: skip invalid non-direct mods; assign the folder name; skip
already-installed destinations; for direct mods reuse or queue the URL
download; for Nexus mods run the archive-reuse scan or queue a task. -/
def scanStep (fs : ScanFs) (st : ScanState) (i : Nat) (mod : ScanModInfo) :
    ScanState :=
  if isDirectOf mod = false ∧ (mod.modId ≤ 0 ∨ mod.fileId ≤ 0) then
    { st with skipped := st.skipped + 1 }
  else
    let folderName := folderNameFor mod (isDirectOf mod)
    let st1 := { st with folderNames := st.folderNames ++ [(i, folderName)] }
    if fs.destNonempty folderName then
      { st1 with skipped := st1.skipped + 1 }
    else if isDirectOf mod then
      if fs.archiveReusable (directFilename mod) then
        { st1 with archives := st1.archives ++ [(i, directFilename mod)] }
      else
        { st1 with downloadTasks := st1.downloadTasks ++
            [⟨mod.directUrl, directFilename mod, directFilename mod,
              mod.name, mod.fileSize, mod.modId, mod.fileId, true, i⟩] }
    else
      match findExistingArchive fs.downloads mod.logicalFilename mod.modId
          mod.fileSize with
      | some e =>
        { st1 with archives := st1.archives ++ [(i, e.name)] }
      | none =>
        { st1 with downloadTasks := st1.downloadTasks ++
            [⟨[], [], [], mod.name, mod.fileSize, mod.modId, mod.fileId,
              false, i⟩] }

/-- The whole Phase-1 first pass: fold `scanStep` over the indexed mods. -/
def scanPhase1 (fs : ScanFs) (mods : List ScanModInfo) : ScanState :=
  (mods.enum).foldl (fun st p => scanStep fs st p.1 p.2) ⟨0, [], [], []⟩

/-- InstallTasks are built from `modArchivePaths` after the download
phase (one task per mod index with an archive). -/
def buildInstallTasks (st : ScanState) : List InstallTaskM :=
  st.archives.map (fun p => ⟨p.1, p.2⟩)

-- ===========================================================================
-- Wrapper-folder detection  (main.cpp)
-- ===========================================================================

/-- A node of an extracted directory tree. -/
inductive FsEntry where
  | file (name : Str)
  | dir (name : Str) (children : List FsEntry)

/-- Directory test (`entry.is_directory()`). -/
def FsEntry.isDir : FsEntry → Bool
  | .dir _ _ => true
  | .file _ => false

/-- Name of an entry (`entry.path().filename()`). -/
def FsEntry.name : FsEntry → Str
  | .file n => n
  | .dir n _ => n

/-- The known game-data content folders of `isDataFolder` that must NOT
be unwrapped. -/
def dataFolders : List Str :=
  ["meshes", "textures", "scripts", "sound", "interface", "strings",
   "seq", "grass", "video", "music", "shaders", "shadersfx",
   "lodsettings", "skse", "netscriptframework", "edit scripts",
   "dialogueviews", "facegen", "caliente tools", "actors", "fonts",
   "materials", "platform", "source", "terrain", "trees", "vis",
   "distantlod", "lod", "dyndolod", "nemesis_engine"].map String.toList

/-- Model of `isDataFolder` (lower-cased membership in the set above). -/
def isDataFolder (name : Str) : Bool := dataFolders.contains (lowerStr name)

/-- Model of `isGameDataFolder`: the name is `Data` case-insensitively. -/
def isGameDataFolder (name : Str) : Bool := lowerStr name == "data".toList

/-- Extensions `isJunkFile` ignores. -/
def junkExts : List Str :=
  [".txt", ".md", ".pdf", ".doc", ".docx", ".rtf", ".url", ".ini",
   ".png", ".jpg", ".jpeg", ".bmp", ".gif"].map String.toList

/-- Name fragments `isJunkFile` ignores (substring match). -/
def junkNames : List Str :=
  ["readme", "license", "changelog", "credits", "authors", "install",
   "instructions"].map String.toList

/-- The extension of a lower-cased file name: the suffix from the LAST
dot (`find_last_of('.')` + `substr`), if any. -/
def extOf (lower : Str) : Option Str :=
  if lower.contains '.' then
    some ('.' :: (lower.reverse.takeWhile (fun c => c ≠ '.')).reverse)
  else none

/-- Model of `isJunkFile`: junk extension, or a junk name occurring
anywhere in the lower-cased file name. -/
def isJunkFile (name : Str) : Bool :=
  let lower := lowerStr name
  (match extOf lower with
   | some ext => junkExts.contains ext
   | none => false) ||
  junkNames.any (fun j => containsSub lower j)

/-- Model of `detectWrapperFolder`, on directory contents instead of
paths: while the current level has exactly one sub-directory and no
significant (non-junk) file beside it, descend into a `Data` folder or a
non-game-data folder; stop on a known game-data folder, on multiple (or
zero) directories, or on a significant file. -/
def detectWrapperFolder (es : List FsEntry) : List FsEntry :=
  match h : es.filter FsEntry.isDir with
  | [FsEntry.dir nm children] =>
    if (es.filter (fun e => !e.isDir)).any (fun f => !isJunkFile f.name) then
      es
    else if isGameDataFolder nm then detectWrapperFolder children
    else if isDataFolder nm then es
    else detectWrapperFolder children
  | _ => es
  termination_by sizeOf es
  decreasing_by
    all_goals
      have hmem : FsEntry.dir nm children ∈ es := by
        have hmf : FsEntry.dir nm children ∈ es.filter FsEntry.isDir := by
          rw [h]
          exact List.mem_singleton_self _
        exact (List.mem_filter.mp hmf).1
      have hlt := List.sizeOf_lt_of_mem hmem
      simp [FsEntry.dir.sizeOf_spec] at hlt ⊢
      omega

-- ===========================================================================
-- installMod control flow  (main.cpp)
-- ===========================================================================

/-- Boolean outcomes of the effectful primitives a run of `installMod`
hits, in source order: whether `extractArchive` succeeded, whether
`findModuleConfig` found a ModuleConfig.xml, whether the task's choices
JSON contains `options`, what `FomodInstaller::process` returned, whether
`expectedPaths` is non-empty, and whether any later filesystem call in
the `try` body threw (the `catch` at the end of `installMod`). -/
structure InstallRun where
  extractOk : Bool
  fomodFound : Bool
  choicesHaveOptions : Bool
  fomodProcessOk : Bool
  expectedPathsNonempty : Bool
  exceptionThrown : Bool

/-- Observable result of one `installMod` call: whether `g_installed` was
incremented, whether `g_failed` was incremented, and the return value. -/
structure InstallOutcome where
  installedInc : Bool
  failedInc : Bool
  retval : Bool
deriving DecidableEq

/-- Control-flow model of `installMod`: extraction failure and a thrown
exception count a failure and return false; otherwise every branch —
including the FOMOD branch, where the source tests
`if (!FomodInstaller::process(...))` and then does nothing with it
("FOMOD had issues but may have partially worked") — falls through to the
shared epilogue `g_installed++; ... return true`. -/
def installModOutcome (r : InstallRun) : InstallOutcome :=
  if r.extractOk = false then ⟨false, true, false⟩
  else if r.exceptionThrown then ⟨false, true, false⟩
  else if r.fomodFound && r.choicesHaveOptions then
    if r.fomodProcessOk then ⟨true, false, true⟩ else ⟨true, false, true⟩
  else if r.fomodFound && r.expectedPathsNonempty then ⟨true, false, true⟩
  else ⟨true, false, true⟩

-- ===========================================================================
-- httpGet / getDownloadLinks  (main.cpp)
-- ===========================================================================

/-- The libcurl result of one `curl_easy_perform` attempt, restricted to
the codes `httpGet` distinguishes. -/
inductive CurlCode where
  | ok
  | timedOut
  | couldntConnect
  | couldntResolveHost
  | gotNothing
  | otherError
deriving DecidableEq

/-- The retry set of `httpGet`: `CURLE_OPERATION_TIMEDOUT`,
`CURLE_COULDNT_CONNECT`, `CURLE_COULDNT_RESOLVE_HOST`,
`CURLE_GOT_NOTHING`. -/
def transientCurlError : CurlCode → Bool
  | .timedOut => true
  | .couldntConnect => true
  | .couldntResolveHost => true
  | .gotNothing => true
  | _ => false

/-- What one attempt of the `httpGet` loop observes: the curl result,
the HTTP response code reported by `CURLINFO_RESPONSE_CODE`, and the
bytes written into `response`. -/
structure HttpAttempt where
  res : CurlCode
  code : Nat
  body : Str
deriving DecidableEq

/-- The `for (attempt = 1..maxRetries)` loop of `httpGet`, with the
sequence of attempt outcomes supplied as data (`[]` models
`curl_easy_init` returning null, which skips the body).  Returns
`((response, httpCode), attemptsUsed)`.  `CURLE_OK` returns immediately
whatever the HTTP status; a transient error retries only while
`attempt < maxRetries`; any other failure returns the partial response. -/
def httpGetLoop : Nat → Nat → List HttpAttempt → (Str × Nat) × Nat
  | 0, used, _ => (([], 0), used)
  | _ + 1, used, [] => (([], 0), used)
  | remaining + 1, used, a :: rest =>
    if a.res = CurlCode.ok then ((a.body, a.code), used + 1)
    else if transientCurlError a.res = true ∧ 0 < remaining then
      httpGetLoop remaining (used + 1) rest
    else ((a.body, a.code), used + 1)

/-- Model of `httpGet` with its default `maxRetries = 3`. -/
def httpGet (maxRetries : Nat) (attempts : List HttpAttempt) :
    (Str × Nat) × Nat :=
  httpGetLoop maxRetries 0 attempts

/-- Model of `NexusAPI::getDownloadLinks`: 403 means "premium required"
and yields the empty list; any other non-200 (or empty body) also yields
the empty list after a log line; a 200 body is handed to the JSON
extraction of the `URI` fields, abstracted as `parseLinks` (nlohmann
JSON is outside the embedding; a parse failure corresponds to
`parseLinks` returning a short list). -/
def getDownloadLinks (parseLinks : Str → List Str)
    (attempts : List HttpAttempt) : List Str :=
  let r := httpGet 3 attempts
  if r.1.2 = 403 then []
  else if r.1.2 ≠ 200 ∨ r.1.1.isEmpty then []
  else parseLinks r.1.1

-- ===========================================================================
-- Theorems: C8 (wrapper unwrapping)
-- ===========================================================================

/-- The condition under which one iteration of the `detectWrapperFolder`
loop descends: exactly one sub-directory, no significant (non-junk) file
beside it, and that directory is either the game `Data` folder or not a
known game-data content folder. -/
def unwrapCondition (es : List FsEntry) : Prop :=
  ∃ nm children,
    es.filter FsEntry.isDir = [FsEntry.dir nm children] ∧
    (es.filter (fun e => !e.isDir)).any (fun f => !isJunkFile f.name) =
      false ∧
    (isGameDataFolder nm = true ∨ isDataFolder nm = false)

theorem detectWrapperFolder_descend (es : List FsEntry) (nm : Str)
    (children : List FsEntry)
    (hd : es.filter FsEntry.isDir = [FsEntry.dir nm children])
    (hs : (es.filter (fun e => !e.isDir)).any
        (fun f => !isJunkFile f.name) = false)
    (hc : isGameDataFolder nm = true ∨ isDataFolder nm = false) :
    detectWrapperFolder es = detectWrapperFolder children := by
  rw [detectWrapperFolder.eq_def]
  split
  case _ nm' children' heq =>
    rw [hd] at heq
    injection heq with hhead _
    injection hhead with hn hch
    subst hn
    subst hch
    rw [hs]
    simp only [Bool.false_eq_true, if_false]
    rcases hc with hg | hdn
    · simp [hg]
    · by_cases hg : isGameDataFolder nm = true
      · simp [hg]
      · simp [hg, hdn]
  case _ hno =>
    exact absurd hd (hno nm children)

theorem detectWrapperFolder_stop_sig (es : List FsEntry) (nm : Str)
    (children : List FsEntry)
    (hd : es.filter FsEntry.isDir = [FsEntry.dir nm children])
    (hs : (es.filter (fun e => !e.isDir)).any
        (fun f => !isJunkFile f.name) = true) :
    detectWrapperFolder es = es := by
  rw [detectWrapperFolder.eq_def]
  split
  case _ nm' children' heq =>
    rw [hs]
    simp
  case _ hno =>
    rfl

theorem detectWrapperFolder_stop_data (es : List FsEntry) (nm : Str)
    (children : List FsEntry)
    (hd : es.filter FsEntry.isDir = [FsEntry.dir nm children])
    (hs : (es.filter (fun e => !e.isDir)).any
        (fun f => !isJunkFile f.name) = false)
    (hg : isGameDataFolder nm = false) (hdf : isDataFolder nm = true) :
    detectWrapperFolder es = es := by
  rw [detectWrapperFolder.eq_def]
  split
  case _ nm' children' heq =>
    rw [hd] at heq
    injection heq with hhead _
    injection hhead with hn hch
    subst hn
    subst hch
    rw [hs, hg]
    simp [hdf]
  case _ hno =>
    rfl

theorem detectWrapperFolder_stop_nosingle (es : List FsEntry)
    (hno : ∀ (nm : Str) (children : List FsEntry),
      es.filter FsEntry.isDir ≠ [FsEntry.dir nm children]) :
    detectWrapperFolder es = es := by
  rw [detectWrapperFolder.eq_def]
  split
  case _ nm' children' heq =>
    exact absurd heq (hno nm' children')
  case _ _ =>
    rfl

theorem detectWrapperFolder_fixpoint (es : List FsEntry) :
    ¬ unwrapCondition (detectWrapperFolder es) := by
  induction es using detectWrapperFolder.induct with
  | case1 x nm children hd hs =>
    rw [detectWrapperFolder_stop_sig x nm children hd hs]
    rintro ⟨nm', ch', hd', hs', -⟩
    rw [hd] at hd'
    injection hd' with hhead _
    injection hhead with hn hch
    subst hn
    subst hch
    rw [hs] at hs'
    exact absurd hs' (by simp)
  | case2 x nm children hd hs hg ih =>
    rw [detectWrapperFolder_descend x nm children hd
      (Bool.not_eq_true _ ▸ Bool.eq_false_iff.mpr hs) (Or.inl hg)]
    exact ih
  | case3 x nm children hd hs hg hdf =>
    rw [detectWrapperFolder_stop_data x nm children hd
      (Bool.not_eq_true _ ▸ Bool.eq_false_iff.mpr hs)
      (Bool.not_eq_true _ ▸ Bool.eq_false_iff.mpr hg) hdf]
    rintro ⟨nm', ch', hd', -, hc'⟩
    rw [hd] at hd'
    injection hd' with hhead _
    injection hhead with hn hch
    subst hn
    rcases hc' with hcg | hcd
    · exact hg hcg
    · rw [hdf] at hcd
      exact absurd hcd (by simp)
  | case4 x nm children hd hs hg hdf ih =>
    rw [detectWrapperFolder_descend x nm children hd
      (Bool.not_eq_true _ ▸ Bool.eq_false_iff.mpr hs)
      (Or.inr (Bool.not_eq_true _ ▸ Bool.eq_false_iff.mpr hdf))]
    exact ih
  | case5 x hno =>
    rw [detectWrapperFolder_stop_nosingle x
      (fun nm ch h => hno nm ch h)]
    rintro ⟨nm', ch', hd', -, -⟩
    exact hno nm' ch' hd'

/-- Claim C8: the wrapper-unwrap pass runs the descend step exactly under
its loop condition — a single sub-directory with no significant file
beside it that is either named `Data` (case-insensitively, always
descended) or not a known game-data folder — and its result is a
fixpoint: the returned level has multiple (or zero) directories, or a
significant file, or its single directory is a known game-data folder
(in particular no single `Data` directory is ever kept); an archive
containing only `MyMod/meshes/...` yields an install root that directly
contains `meshes/...`. -/
theorem detectWrapperFolder_spec :
    (∀ es : List FsEntry, ¬ unwrapCondition (detectWrapperFolder es)) ∧
    (∀ (es : List FsEntry) (nm : Str) (children : List FsEntry),
      es.filter FsEntry.isDir = [FsEntry.dir nm children] →
      (es.filter (fun e => !e.isDir)).any (fun f => !isJunkFile f.name) =
        false →
      (isGameDataFolder nm = true ∨ isDataFolder nm = false) →
      detectWrapperFolder es = detectWrapperFolder children) ∧
    detectWrapperFolder
        [FsEntry.dir "MyMod".toList
          [FsEntry.dir "meshes".toList [FsEntry.file "m.nif".toList]]] =
      [FsEntry.dir "meshes".toList [FsEntry.file "m.nif".toList]] := by
  refine ⟨detectWrapperFolder_fixpoint, detectWrapperFolder_descend, ?_⟩
  have h1 := detectWrapperFolder_descend
    [FsEntry.dir "MyMod".toList
      [FsEntry.dir "meshes".toList [FsEntry.file "m.nif".toList]]]
    "MyMod".toList [FsEntry.dir "meshes".toList [FsEntry.file "m.nif".toList]]
    rfl rfl (Or.inr (by decide))
  have h2 := detectWrapperFolder_stop_data
    [FsEntry.dir "meshes".toList [FsEntry.file "m.nif".toList]]
    "meshes".toList [FsEntry.file "m.nif".toList]
    rfl rfl (by decide) (by decide)
  rw [h1, h2]

/-- Witness for `detectWrapperFolder_spec`: the two conditional parts
applied at a concrete wrapper tree. -/
theorem detectWrapperFolder_spec_witness :
    detectWrapperFolder
        [FsEntry.dir "Wrap".toList [FsEntry.file "data.bsa".toList]] =
      detectWrapperFolder [FsEntry.file "data.bsa".toList] :=
  detectWrapperFolder_spec.2.1
    [FsEntry.dir "Wrap".toList [FsEntry.file "data.bsa".toList]]
    "Wrap".toList [FsEntry.file "data.bsa".toList]
    rfl rfl (Or.inr (by decide))

-- ===========================================================================
-- Theorems: C6 (FOMOD process failure handling)
-- ===========================================================================

/-- Claim C6 counterexample: a run whose extraction succeeds, whose FOMOD
is found with options, and whose `FomodInstaller::process` returns false
is NOT counted as a failure: `g_installed` is incremented, `g_failed` is
not, and `installMod` returns true (prints "Done!"). -/
theorem fomod_failure_not_counted :
    installModOutcome ⟨true, true, true, false, false, false⟩ =
      ⟨true, false, true⟩ ∧
    (installModOutcome
        ⟨true, true, true, false, false, false⟩).failedInc = false :=
  ⟨rfl, rfl⟩

/-- Claim C6 (amended): when `FomodInstaller::process` fails (returns
false) the failure is swallowed: provided extraction succeeded and no
later filesystem call throws, `installMod` increments the installed
counter, does not increment the failure counter, and returns true —
exactly as for a successful FOMOD run. -/
theorem fomod_failure_swallowed (r : InstallRun)
    (hx : r.extractOk = true) (he : r.exceptionThrown = false)
    (hf : r.fomodFound = true) (hc : r.choicesHaveOptions = true)
    (hp : r.fomodProcessOk = false) :
    installModOutcome r = ⟨true, false, true⟩ := by
  simp [installModOutcome, hx, he, hf, hc, hp]

/-- Witness for `fomod_failure_swallowed` at a concrete failing run. -/
theorem fomod_failure_swallowed_witness :
    installModOutcome ⟨true, true, true, false, true, false⟩ =
      ⟨true, false, true⟩ :=
  fomod_failure_swallowed ⟨true, true, true, false, true, false⟩
    rfl rfl rfl rfl rfl

-- ===========================================================================
-- Theorems: C7 (403 and retry behaviour of resolveDownload)
-- ===========================================================================

/-- Claim C7 counterexample: an HTTP 500 delivered without transport
error is not retried: with a second attempt available that would yield
200, `httpGet` stops after one attempt with the 500 response, and
`getDownloadLinks` gives up with the empty list. -/
theorem non200_not_retried :
    httpGet 3 [⟨CurlCode.ok, 500, "err".toList⟩,
        ⟨CurlCode.ok, 200, "good".toList⟩] =
      (("err".toList, 500), 1) ∧
    getDownloadLinks (fun _ => ["x".toList])
        [⟨CurlCode.ok, 500, "err".toList⟩,
         ⟨CurlCode.ok, 200, "good".toList⟩] = [] :=
  ⟨rfl, rfl⟩

/-- Claim C7 (amended): a 403 yields the empty list (not an error), and
so does every other non-200; but non-200 statuses are NOT retried —
`httpGet` returns any `CURLE_OK` attempt immediately whatever its status,
and retries (up to the 3-attempt budget) happen only on transport-level
curl errors (timeout, connect, DNS, empty response). -/
theorem getDownloadLinks_behaviour (parseLinks : Str → List Str)
    (a : HttpAttempt) (rest : List HttpAttempt)
    (hok : a.res = CurlCode.ok) :
    httpGet 3 (a :: rest) = ((a.body, a.code), 1) ∧
    (a.code = 403 → getDownloadLinks parseLinks (a :: rest) = []) ∧
    (a.code ≠ 200 → getDownloadLinks parseLinks (a :: rest) = []) ∧
    (∀ b : HttpAttempt, transientCurlError b.res = true →
      httpGet 3 (b :: rest) = httpGetLoop 2 1 rest) := by
  have h1 : httpGet 3 (a :: rest) = ((a.body, a.code), 1) := by
    simp [httpGet, httpGetLoop, hok]
  refine ⟨h1, ?_, ?_, ?_⟩
  · intro h403
    simp [getDownloadLinks, h1, h403]
  · intro hne
    simp only [getDownloadLinks, h1]
    by_cases h403 : a.code = 403
    · simp [h403]
    · simp [h403, hne]
  · intro b hb
    have hnot : ¬b.res = CurlCode.ok := by
      intro hcontra
      rw [hcontra] at hb
      simp [transientCurlError] at hb
    simp [httpGet, httpGetLoop, hnot, hb]

/-- Witness for `getDownloadLinks_behaviour` at a concrete 403 answer. -/
theorem getDownloadLinks_behaviour_witness :
    httpGet 3 [⟨CurlCode.ok, 403, []⟩] = (([], 403), 1) ∧
    ((⟨CurlCode.ok, 403, []⟩ : HttpAttempt).code = 403 →
      getDownloadLinks (fun _ => []) [⟨CurlCode.ok, 403, []⟩] = []) ∧
    ((⟨CurlCode.ok, 403, []⟩ : HttpAttempt).code ≠ 200 →
      getDownloadLinks (fun _ => []) [⟨CurlCode.ok, 403, []⟩] = []) ∧
    (∀ b : HttpAttempt, transientCurlError b.res = true →
      httpGet 3 [b] = httpGetLoop 2 1 []) :=
  getDownloadLinks_behaviour (fun _ => []) ⟨CurlCode.ok, 403, []⟩ [] rfl

-- ===========================================================================
-- Theorems: C9 (sanitisation idempotent)
-- ===========================================================================

theorem sanChar_idem (c : Char) : sanChar (sanChar c) = sanChar c := by
  by_cases h : badFolderChar c = true
  · simp [sanChar, h]
  · simp [sanChar, h]

theorem trailingJunk_sanChar (c : Char) :
    trailingJunk (sanChar c) = trailingJunk c := by
  by_cases h : badFolderChar c = true
  · have hj : trailingJunk c = false := by
      simp only [badFolderChar, Bool.or_eq_true, beq_iff_eq] at h
      rcases h with ((((((((h | h) | h) | h) | h) | h) | h) | h) | h) <;>
        subst h <;> decide
    rw [show sanChar c = '_' from by simp [sanChar, h], hj]
    decide
  · simp [sanChar, h]

theorem dropWhile_self (p : Char → Bool) (l : Str) :
    (l.dropWhile p).dropWhile p = l.dropWhile p := by
  induction l with
  | nil => simp
  | cons x t ih =>
    by_cases hp : p x = true
    · simp [List.dropWhile_cons, hp, ih]
    · simp [List.dropWhile_cons, hp]

theorem map_dropWhile_comm (f : Char → Char) (p : Char → Bool)
    (h : ∀ c, p (f c) = p c) (l : Str) :
    (l.dropWhile p).map f = (l.map f).dropWhile p := by
  induction l with
  | nil => simp
  | cons x t ih =>
    by_cases hp : p x = true
    · simp [List.dropWhile_cons, hp, h, ih]
    · simp [List.dropWhile_cons, hp, h]

/-- Claim C9: folder-name sanitisation is idempotent: for every string `s`,
`sanitizeFolderName (sanitizeFolderName s) = sanitizeFolderName s`. -/
theorem sanitizeFolderName_idempotent (s : Str) :
    sanitizeFolderName (sanitizeFolderName s) = sanitizeFolderName s := by
  unfold sanitizeFolderName
  set L := (s.map sanChar).reverse with hL
  set D := L.dropWhile trailingJunk with hD
  have hmapL : L.map sanChar = L := by
    rw [hL, List.map_reverse, List.map_map]
    have hcomp : sanChar ∘ sanChar = sanChar := funext sanChar_idem
    rw [hcomp]
  have hmapD : D.map sanChar = D := by
    rw [hD, map_dropWhile_comm sanChar trailingJunk trailingJunk_sanChar,
      hmapL]
  have h1 : D.reverse.map sanChar = D.reverse := by
    rw [List.map_reverse, hmapD]
  rw [h1, List.reverse_reverse]
  have h2 : D.dropWhile trailingJunk = D := by
    rw [hD]; exact dropWhile_self _ _
  rw [h2]

-- ===========================================================================
-- Theorems: C5 (empty dependencies)
-- ===========================================================================

/-- Claim C5 counterexample: an empty `<dependencies>` element whose
operator is `Or` evaluates to `true`, not `false` as the claim states
(the fall-through `return isAnd || !hasAny` fires with `hasAny = false`). -/
theorem evaluateDependencies_empty_or :
    evaluateDependencies [] (DepTree.node "Or".toList [] []) = true := by
  simp [evaluateDependencies]

/-- Claim C5 (amended): a `<dependencies>` element with no `flagDependency`
leaves and no nested `<dependencies>` evaluates to `true` for every
operator and every flag map: `true` under `And`/absent as the claim says,
but also `true` under `Or`. -/
theorem evaluateDependencies_empty (flags : List (Str × Str)) (op : Str) :
    evaluateDependencies flags (DepTree.node op [] []) = true := by
  simp [evaluateDependencies]

-- ===========================================================================
-- Theorems: C10 (invalid non-direct mods are skipped entirely)
-- ===========================================================================

/-- The skip condition of the first lines of the scan loop, as
propositions about a mod. -/
def skipCondition (mod : ScanModInfo) : Prop :=
  ¬(mod.sourceType = "direct".toList ∧ mod.directUrl ≠ []) ∧
    (mod.modId ≤ 0 ∨ mod.fileId ≤ 0)

theorem isDirectOf_false (mod : ScanModInfo)
    (hnd : ¬(mod.sourceType = "direct".toList ∧ mod.directUrl ≠ [])) :
    isDirectOf mod = false := by
  by_cases hb : mod.sourceType = "direct".toList
  · have hurl : mod.directUrl = [] := by
      by_contra hne
      exact hnd ⟨hb, hne⟩
    simp [isDirectOf, hurl]
  · have hbeq : (mod.sourceType == "direct".toList) = false :=
      beq_eq_false_iff_ne.mpr hb
    simp only [isDirectOf, hbeq, Bool.false_and]

theorem scanStep_skip (fs : ScanFs) (st : ScanState) (i : Nat)
    (mod : ScanModInfo) (h : skipCondition mod) :
    scanStep fs st i mod = { st with skipped := st.skipped + 1 } := by
  have hdir := isDirectOf_false mod h.1
  rw [scanStep, if_pos ⟨hdir, h.2⟩]

theorem scanStep_entries (fs : ScanFs) (st : ScanState) (j : Nat)
    (mod : ScanModInfo) :
    (∀ p ∈ (scanStep fs st j mod).folderNames,
        p ∈ st.folderNames ∨ p.1 = j) ∧
    (∀ p ∈ (scanStep fs st j mod).archives, p ∈ st.archives ∨ p.1 = j) ∧
    (∀ t ∈ (scanStep fs st j mod).downloadTasks,
        t ∈ st.downloadTasks ∨ t.modIndex = j) := by
  by_cases hc1 : isDirectOf mod = false ∧ (mod.modId ≤ 0 ∨ mod.fileId ≤ 0)
  · rw [scanStep, if_pos hc1]
    exact ⟨fun p hp => Or.inl hp, fun p hp => Or.inl hp,
      fun t ht => Or.inl ht⟩
  · rw [scanStep, if_neg hc1]
    by_cases hc2 :
        fs.destNonempty (folderNameFor mod (isDirectOf mod)) = true
    · simp only [hc2, if_true]
      refine ⟨fun p hp => ?_, fun p hp => Or.inl hp,
        fun t ht => Or.inl ht⟩
      rcases List.mem_append.mp hp with h | h
      · exact Or.inl h
      · simp at h
        exact Or.inr (by rw [h])
    · simp only [hc2, if_false, Bool.false_eq_true]
      by_cases hc3 : isDirectOf mod = true
      · simp only [hc3, if_true]
        by_cases hc4 : fs.archiveReusable (directFilename mod) = true
        · simp only [hc4, if_true]
          refine ⟨fun p hp => ?_, fun p hp => ?_, fun t ht => Or.inl ht⟩
          · rcases List.mem_append.mp hp with h | h
            · exact Or.inl h
            · simp at h
              exact Or.inr (by rw [h])
          · rcases List.mem_append.mp hp with h | h
            · exact Or.inl h
            · simp at h
              exact Or.inr (by rw [h])
        · simp only [hc4, if_false, Bool.false_eq_true]
          refine ⟨fun p hp => ?_, fun p hp => Or.inl hp,
            fun t ht => ?_⟩
          · rcases List.mem_append.mp hp with h | h
            · exact Or.inl h
            · simp at h
              exact Or.inr (by rw [h])
          · rcases List.mem_append.mp ht with h | h
            · exact Or.inl h
            · simp at h
              exact Or.inr (by rw [h])
      · simp only [hc3, if_false, Bool.false_eq_true]
        cases hfe : findExistingArchive fs.downloads mod.logicalFilename
            mod.modId mod.fileSize with
        | some e =>
          simp only [hfe]
          refine ⟨fun p hp => ?_, fun p hp => ?_, fun t ht => Or.inl ht⟩
          · rcases List.mem_append.mp hp with h | h
            · exact Or.inl h
            · simp at h
              exact Or.inr (by rw [h])
          · rcases List.mem_append.mp hp with h | h
            · exact Or.inl h
            · simp at h
              exact Or.inr (by rw [h])
        | none =>
          simp only [hfe]
          refine ⟨fun p hp => ?_, fun p hp => Or.inl hp, fun t ht => ?_⟩
          · rcases List.mem_append.mp hp with h | h
            · exact Or.inl h
            · simp at h
              exact Or.inr (by rw [h])
          · rcases List.mem_append.mp ht with h | h
            · exact Or.inl h
            · simp at h
              exact Or.inr (by rw [h])

theorem scanStep_skipped_le (fs : ScanFs) (st : ScanState) (j : Nat)
    (mod : ScanModInfo) : st.skipped ≤ (scanStep fs st j mod).skipped := by
  rw [scanStep]
  by_cases hc1 : isDirectOf mod = false ∧ (mod.modId ≤ 0 ∨ mod.fileId ≤ 0)
  · rw [if_pos hc1]
    exact Nat.le_succ _
  · rw [if_neg hc1]
    by_cases hc2 :
        fs.destNonempty (folderNameFor mod (isDirectOf mod)) = true
    · simp only [hc2, if_true]
      exact Nat.le_succ _
    · simp only [hc2, if_false, Bool.false_eq_true]
      by_cases hc3 : isDirectOf mod = true
      · simp only [hc3, if_true]
        by_cases hc4 : fs.archiveReusable (directFilename mod) = true
        · simp [hc4]
        · simp [hc4]
      · simp only [hc3, if_false, Bool.false_eq_true]
        cases hfe : findExistingArchive fs.downloads mod.logicalFilename
            mod.modId mod.fileSize with
        | some e => simp [hfe]
        | none => simp [hfe]

/-- No-trace-of-mod-`i` invariant over the scan state. -/
def Untouched (i : Nat) (st : ScanState) : Prop :=
  (∀ p ∈ st.folderNames, p.1 ≠ i) ∧ (∀ p ∈ st.archives, p.1 ≠ i) ∧
    (∀ t ∈ st.downloadTasks, t.modIndex ≠ i)

theorem scanFold_untouched (fs : ScanFs) (i : Nat) :
    ∀ (l : List (Nat × ScanModInfo)) (st : ScanState),
      (∀ q ∈ l, q.1 = i → skipCondition q.2) → Untouched i st →
      Untouched i (l.foldl (fun st p => scanStep fs st p.1 p.2) st) := by
  intro l
  induction l with
  | nil => intro st _ hst; exact hst
  | cons q rest ih =>
    intro st hl hst
    obtain ⟨j, m⟩ := q
    simp only [List.foldl_cons]
    refine ih _ (fun r hr => hl r (List.mem_cons_of_mem _ hr)) ?_
    by_cases hq : j = i
    · subst hq
      have hskip := hl (j, m) (List.mem_cons_self _ _) rfl
      rw [scanStep_skip fs st j m hskip]
      exact hst
    · obtain ⟨h1, h2, h3⟩ := scanStep_entries fs st j m
      refine ⟨fun p hp => ?_, fun p hp => ?_, fun t ht => ?_⟩
      · rcases h1 p hp with h | h
        · exact hst.1 p h
        · rw [h]; exact hq
      · rcases h2 p hp with h | h
        · exact hst.2.1 p h
        · rw [h]; exact hq
      · rcases h3 t ht with h | h
        · exact hst.2.2 t h
        · rw [h]; exact hq

theorem scanFold_skipped_le (fs : ScanFs) :
    ∀ (l : List (Nat × ScanModInfo)) (st : ScanState),
      st.skipped ≤
        (l.foldl (fun st p => scanStep fs st p.1 p.2) st).skipped := by
  intro l
  induction l with
  | nil => intro st; exact Nat.le_refl _
  | cons q rest ih =>
    intro st
    exact Nat.le_trans (scanStep_skipped_le fs st q.1 q.2) (ih _)

theorem scanFold_skip_counted (fs : ScanFs) (i : Nat)
    (mod : ScanModInfo) (hc : skipCondition mod) :
    ∀ (l : List (Nat × ScanModInfo)) (st : ScanState), (i, mod) ∈ l →
      st.skipped + 1 ≤
        (l.foldl (fun st p => scanStep fs st p.1 p.2) st).skipped := by
  intro l
  induction l with
  | nil => intro st h; cases h
  | cons q rest ih =>
    intro st hmem
    rcases List.mem_cons.mp hmem with h | h
    · have hstep : (scanStep fs st q.1 q.2).skipped = st.skipped + 1 := by
        rw [← h, scanStep_skip fs st i mod hc]
      calc st.skipped + 1 = (scanStep fs st q.1 q.2).skipped :=
            hstep.symm
        _ ≤ _ := scanFold_skipped_le fs rest _
    · exact Nat.le_trans
        (Nat.add_le_add_right (scanStep_skipped_le fs st q.1 q.2) 1)
        (ih _ h)

/-- Claim C10: a mod whose source is not a usable direct download and
whose modId or fileId is missing/non-positive leaves no trace in the
Phase-1 scan output: its step only increments `skipped`, its folder name
is never assigned, no archive path is recorded for it, no DownloadTask
references it, and consequently no InstallTask is built for it; the
final `skipped` count includes it. -/
theorem invalid_mod_fully_skipped (fs : ScanFs) (mods : List ScanModInfo)
    (i : Nat) (mod : ScanModInfo) (hm : mods[i]? = some mod)
    (hnd : ¬(mod.sourceType = "direct".toList ∧ mod.directUrl ≠ []))
    (hid : mod.modId ≤ 0 ∨ mod.fileId ≤ 0) :
    (∀ st : ScanState,
        scanStep fs st i mod = { st with skipped := st.skipped + 1 }) ∧
    (∀ p ∈ (scanPhase1 fs mods).folderNames, p.1 ≠ i) ∧
    (∀ p ∈ (scanPhase1 fs mods).archives, p.1 ≠ i) ∧
    (∀ t ∈ (scanPhase1 fs mods).downloadTasks, t.modIndex ≠ i) ∧
    (∀ t ∈ buildInstallTasks (scanPhase1 fs mods), t.index ≠ i) ∧
    1 ≤ (scanPhase1 fs mods).skipped := by
  have hc : skipCondition mod := ⟨hnd, hid⟩
  have hl : ∀ q ∈ mods.enum, q.1 = i → skipCondition q.2 := by
    intro q hq hqi
    have hget : mods[q.1]? = some q.2 := List.mem_enum_iff_getElem?.mp hq
    rw [hqi, hm] at hget
    have heqm : mod = q.2 := Option.some.inj hget
    rw [← heqm]
    exact hc
  have hunt : Untouched i (scanPhase1 fs mods) := by
    apply scanFold_untouched fs i mods.enum _ hl
    exact ⟨fun p hp => absurd hp (List.not_mem_nil p),
      fun p hp => absurd hp (List.not_mem_nil p),
      fun t ht => absurd ht (List.not_mem_nil t)⟩
  obtain ⟨hf, ha, hd⟩ := hunt
  refine ⟨fun st => scanStep_skip fs st i mod hc, hf, ha, hd, ?_, ?_⟩
  · intro t ht
    simp only [buildInstallTasks, List.mem_map] at ht
    obtain ⟨p, hp, rfl⟩ := ht
    exact ha p hp
  · have hmem : (i, mod) ∈ mods.enum :=
      List.mk_mem_enum_iff_getElem?.mpr (by simpa using hm)
    have := scanFold_skip_counted fs i mod hc mods.enum ⟨0, [], [], []⟩ hmem
    simpa [scanPhase1] using this

/-- Concrete filesystem view for the C10 witness: nothing on disk. -/
def c10fs : ScanFs := ⟨fun _ => false, fun _ => false, []⟩

/-- Concrete invalid mod for the C10 witness: a Nexus-sourced mod whose
modId and fileId defaulted to -1. -/
def c10mod : ScanModInfo :=
  ⟨"A".toList, [], -1, -1, 0, "nexus".toList, []⟩

/-- Witness for `invalid_mod_fully_skipped` on a one-mod collection. -/
theorem invalid_mod_fully_skipped_witness :
    (∀ st : ScanState,
        scanStep c10fs st 0 c10mod =
          { st with skipped := st.skipped + 1 }) ∧
    (∀ p ∈ (scanPhase1 c10fs [c10mod]).folderNames, p.1 ≠ 0) ∧
    (∀ p ∈ (scanPhase1 c10fs [c10mod]).archives, p.1 ≠ 0) ∧
    (∀ t ∈ (scanPhase1 c10fs [c10mod]).downloadTasks, t.modIndex ≠ 0) ∧
    (∀ t ∈ buildInstallTasks (scanPhase1 c10fs [c10mod]), t.index ≠ 0) ∧
    1 ≤ (scanPhase1 c10fs [c10mod]).skipped :=
  invalid_mod_fully_skipped c10fs [c10mod] 0 c10mod rfl
    (by simp [c10mod]) (Or.inl (by simp [c10mod]))

-- ===========================================================================
-- Theorems: C3 / C4 (archive reuse)
-- ===========================================================================

theorem scanLoop_fst (lf : Str) (modId expectedSize : Int) :
    ∀ (entries : List DirEntry) (fb : Option DirEntry),
      (scanLoop lf modId expectedSize entries fb).map (fun p => p.1) =
        (entries.find? (matchesPriorityRule lf modId expectedSize)).or
          (fb.or (entries.find? (entryContainsModId modId))) := by
  intro entries
  induction entries with
  | nil => intro fb; cases fb <;> simp [scanLoop]
  | cons e rest ih =>
    intro fb
    by_cases h1 : rule1Matches lf modId e = true
    · simp [scanLoop, h1, matchesPriorityRule, List.find?_cons]
    · by_cases h2 : rule2Matches lf modId e = true
      · simp [scanLoop, h1, h2, matchesPriorityRule, List.find?_cons]
      · by_cases h3 : rule3Matches modId expectedSize e = true
        · simp [scanLoop, h1, h2, h3, matchesPriorityRule, List.find?_cons]
        · have hm : matchesPriorityRule lf modId expectedSize e = false := by
            simp [matchesPriorityRule, h1, h2, h3]
          by_cases hc : entryContainsModId modId e = true
          · cases fb with
            | none =>
              simp only [scanLoop, h1, h2, h3, if_false, hc, Option.isNone,
                Bool.and_true, if_true, Bool.false_eq_true]
              rw [ih]
              simp [List.find?_cons, hm, hc]
            | some x =>
              simp only [scanLoop, h1, h2, h3, if_false, hc, Option.isNone,
                Bool.and_false, Bool.false_eq_true]
              rw [ih]
              simp [List.find?_cons, hm, hc]
          · simp only [scanLoop, h1, h2, h3, if_false, hc, Bool.false_and,
              Bool.false_eq_true]
            rw [ih]
            simp [List.find?_cons, hm, hc]

/-- Claim C4 counterexample: with downloads-folder enumeration order
`["Other-123-5.7z" (size 100), "CoolMod-123-1.7z" (size 50)]`, logical
filename `CoolMod`, modId 123, expected size 100, the scan returns the
rule-3 (size-exact) file `Other-123-5.7z` even though `CoolMod-123-1.7z`
is a rule-1 match — so a rule-1 match is NOT preferred over a rule-3 match
independently of enumeration order. -/
theorem reuseRules_not_global_priority :
    findExistingArchive
        [⟨"Other-123-5.7z".toList, 100⟩, ⟨"CoolMod-123-1.7z".toList, 50⟩]
        "CoolMod".toList 123 100 =
      some ⟨"Other-123-5.7z".toList, 100⟩ ∧
    rule1Matches "CoolMod".toList 123 ⟨"CoolMod-123-1.7z".toList, 50⟩ =
      true ∧
    rule1Matches "CoolMod".toList 123 ⟨"Other-123-5.7z".toList, 100⟩ =
      false :=
  ⟨by decide, by decide, by decide⟩

/-- Claim C4 (amended): the scan is a single pass over the downloads
folder in enumeration order; per file, rules 1-3 are tested in order and
the first file satisfying any of them is taken (so an earlier rule-3
match beats a later rule-1 match); only the rule-4 fallback is deferred
to the end of the scan: it is the first file containing `-modId-`, used
exactly when no file matches rules 1-3. -/
theorem findExistingArchive_characterization (entries : List DirEntry)
    (lf : Str) (modId expectedSize : Int) :
    findExistingArchive entries lf modId expectedSize =
      (entries.find? (matchesPriorityRule lf modId expectedSize)).or
        (entries.find? (entryContainsModId modId)) := by
  unfold findExistingArchive findExistingArchiveT
  rw [scanLoop_fst]
  simp

/-- Claim C3 counterexample: mod with expected size 100, downloads folder
containing only `CoolMod-123-1.7z` of size 50: the wrong-size file is
accepted for reuse through prefix rule 1, so no re-download happens. -/
theorem sizeCheck_not_enforced_for_reuse :
    findExistingArchive [⟨"CoolMod-123-1.7z".toList, 50⟩] "CoolMod".toList
        123 100 =
      some ⟨"CoolMod-123-1.7z".toList, 50⟩ ∧ (50 : Int) ≠ 100 :=
  ⟨by decide, by decide⟩

theorem scanLoop_sizeExact (lf : Str) (modId expectedSize : Int) :
    ∀ (entries : List DirEntry) (fb : Option DirEntry) (e : DirEntry),
      scanLoop lf modId expectedSize entries fb =
          some (e, ReuseRule.sizeExact) →
      e.size = expectedSize ∧ 0 < expectedSize := by
  intro entries
  induction entries with
  | nil =>
    intro fb e h
    cases fb <;> simp [scanLoop] at h
  | cons a rest ih =>
    intro fb e h
    by_cases h1 : rule1Matches lf modId a = true
    · simp [scanLoop, h1] at h
    · by_cases h2 : rule2Matches lf modId a = true
      · simp [scanLoop, h1, h2] at h
      · by_cases h3 : rule3Matches modId expectedSize a = true
        · simp only [scanLoop, h1, h2, h3, Bool.false_eq_true, if_false,
            if_true, Option.some.injEq, Prod.mk.injEq] at h
          obtain ⟨rfl, -⟩ := h
          simp only [rule3Matches, Bool.and_eq_true, decide_eq_true_eq,
            beq_iff_eq] at h3
          exact ⟨h3.2, h3.1.2⟩
        · simp only [scanLoop, h1, h2, h3, Bool.false_eq_true, if_false] at h
          exact ih _ e h

/-- Claim C3 (amended): size-exactness governs only the size-checked
rule-3 acceptance: whenever the scan accepts an archive via rule 3, the
archive's size equals the expected size (and an expected size was
present).  Wrong-size archives can still be reused through prefix rules
1-2 and through the rule-4 fallback, as the counterexample shows. -/
theorem sizeExact_acceptance_is_size_checked (entries : List DirEntry)
    (lf : Str) (modId expectedSize : Int) (e : DirEntry)
    (h : findExistingArchiveT entries lf modId expectedSize =
      some (e, ReuseRule.sizeExact)) :
    e.size = expectedSize ∧ 0 < expectedSize :=
  scanLoop_sizeExact lf modId expectedSize entries none e h

/-- Witness for `sizeExact_acceptance_is_size_checked` at a concrete
rule-3 acceptance. -/
theorem sizeExact_acceptance_is_size_checked_witness :
    (⟨"x-123-file.7z".toList, 100⟩ : DirEntry).size = 100 ∧
      (0 : Int) < 100 :=
  sizeExact_acceptance_is_size_checked [⟨"x-123-file.7z".toList, 100⟩]
    [] 123 100 ⟨"x-123-file.7z".toList, 100⟩ (by decide)

-- ===========================================================================
-- Theorems: C2 (composite-key choice lookup)
-- ===========================================================================

/-- Claim C2: `getSelectedOptions stepName groupName` returns exactly the
option names recorded under a step whose name case-insensitively equals
`stepName` and, within such steps, a group whose name case-insensitively
equals `groupName` — so a selection recorded for a same-named group under a
different step is never returned — and the engine's selection test
(`pluginIsSelected`, the way `FomodInstaller::process` consumes the store)
holds exactly when such a composite-key entry case-insensitively matches
the plugin name. -/
theorem getSelectedOptions_composite_key (c : FomodChoices)
    (stepName groupName o : Str) :
    (o ∈ getSelectedOptions c stepName groupName ↔
      ∃ st ∈ c.steps, iequals st.name stepName = true ∧
        ∃ g ∈ st.groups, iequals g.name groupName = true ∧
          ∃ ch ∈ g.choices, ch.name = o) ∧
    (pluginIsSelected c stepName groupName o = true ↔
      ∃ st ∈ c.steps, iequals st.name stepName = true ∧
        ∃ g ∈ st.groups, iequals g.name groupName = true ∧
          ∃ ch ∈ g.choices, iequals ch.name o = true) := by
  constructor
  · simp only [getSelectedOptions, List.mem_flatMap, List.mem_filter,
      List.mem_map]
    constructor
    · rintro ⟨st, ⟨hst, hsteq⟩, g, ⟨hg, hgeq⟩, ch, hch, rfl⟩
      exact ⟨st, hst, hsteq, g, hg, hgeq, ch, hch, rfl⟩
    · rintro ⟨st, hst, hsteq, g, hg, hgeq, ch, hch, rfl⟩
      exact ⟨st, ⟨hst, hsteq⟩, g, ⟨hg, hgeq⟩, ch, hch, rfl⟩
  · simp only [pluginIsSelected, List.any_eq_true, getSelectedOptions,
      List.mem_flatMap, List.mem_filter, List.mem_map]
    constructor
    · rintro ⟨sel, ⟨st, ⟨hst, hsteq⟩, g, ⟨hg, hgeq⟩, ch, hch, rfl⟩, heq⟩
      exact ⟨st, hst, hsteq, g, hg, hgeq, ch, hch, heq⟩
    · rintro ⟨st, hst, hsteq, g, hg, hgeq, ch, hch, heq⟩
      exact ⟨ch.name, ⟨st, ⟨hst, hsteq⟩, g, ⟨hg, hgeq⟩, ch, hch, rfl⟩, heq⟩

-- ===========================================================================
-- Mod order generation  (main.cpp, ModListGenerator)
-- ===========================================================================

/-- The slice of `ModInfo` consulted by the mod sorter. -/
structure SortModInfo where
  name : Str
  logicalFilename : Str
  md5 : Str
  folderName : Str
deriving DecidableEq

/-- A `ModRule` of the collection descriptor. -/
structure ModRule where
  type : Str
  sourceMd5 : Str
  sourceLogicalName : Str
  referenceMd5 : Str
  referenceLogicalName : Str
deriving DecidableEq

/-- The key a mod is registered under in `logicalNameToIdx`: the logical
filename, falling back to the display name when empty. -/
def modKey (m : SortModInfo) : Str :=
  if m.logicalFilename.isEmpty then m.name else m.logicalFilename

/-- `logicalNameToIdx` lookup: the map is filled by `map[key] = i` for
`i = 0..n-1`, so on duplicate keys the LAST index wins. -/
def logicalNameToIdx (mods : List SortModInfo) (key : Str) : Option Nat :=
  (mods.enum.reverse.find? (fun p => modKey p.2 == key)).map (fun p => p.1)

/-- `md5ToLogicalName` lookup: filled (in order) for mods with non-empty
md5, last one wins; yields the registered key of that mod. -/
def md5ToLogicalName (mods : List SortModInfo) (md5 : Str) : Option Str :=
  ((mods.filter (fun m => !m.md5.isEmpty)).reverse.find?
    (fun m => m.md5 == md5)).map modKey

/-- Key resolution for one end of a rule: the rule's logical name if
non-empty; otherwise the md5 lookup when the md5 is non-empty (the key
stays empty when both fail, and an empty key can still hit a mod whose
own key is empty, as in the source). -/
def resolveKey (mods : List SortModInfo) (logicalName md5 : Str) : Str :=
  if logicalName.isEmpty ∧ ¬md5.isEmpty then
    match md5ToLogicalName mods md5 with
    | some k => k
    | none => logicalName
  else logicalName

/-- Rule resolution: both source and reference keys must be found in
`logicalNameToIdx`, otherwise the rule is skipped. -/
def resolveRule (mods : List SortModInfo) (rule : ModRule) :
    Option (Nat × Nat) :=
  match logicalNameToIdx mods
      (resolveKey mods rule.sourceLogicalName rule.sourceMd5),
    logicalNameToIdx mods
      (resolveKey mods rule.referenceLogicalName rule.referenceMd5) with
  | some s, some r => some (s, r)
  | _, _ => none

/-- The constraint edge a rule contributes: `u → v` means `u` must come
before `v` in the (pre-reversal) order.  `before` gives source→reference,
`after` gives reference→source; other types are skipped. -/
def ruleEdge (mods : List SortModInfo) (rule : ModRule) :
    Option (Nat × Nat) :=
  match resolveRule mods rule with
  | some (s, r) =>
    if rule.type == "before".toList then some (s, r)
    else if rule.type == "after".toList then some (r, s)
    else none
  | none => none

/-- All constraint edges (the successors/predecessors adjacency lists of
the source are exactly these edges, with multiplicity). -/
def resolvedEdges (mods : List SortModInfo) (rules : List ModRule) :
    List (Nat × Nat) :=
  rules.filterMap (ruleEdge mods)

/-- The in-degree-zero test of Kahn's algorithm: `inDegree[v]` counts the
edges into `v` from not-yet-emitted nodes (the counter is decremented
once per edge when its source is popped), so it is zero exactly when
every edge into `v` has an already-emitted source. -/
def kahnReady (edges : List (Nat × Nat)) (emitted : List Nat) (v : Nat) :
    Bool :=
  edges.all (fun e => e.2 != v || emitted.contains e.1)

/-- The nodes the priority queue can pop: in range, not yet emitted, and
with in-degree zero. -/
def kahnCandidates (n : Nat) (edges : List (Nat × Nat))
    (emitted : List Nat) : List Nat :=
  (List.range n).filter (fun v =>
    !emitted.contains v && kahnReady edges emitted v)

/-- The pop of the tie-breaker priority queue: an element of the ready
set with minimal tie-breaker (the std::priority_queue's order among
equal keys is unspecified; the model takes the lowest-index one). -/
def pickMinBy (tb : Nat → Nat) : List Nat → Option Nat
  | [] => none
  | v :: rest =>
    match pickMinBy tb rest with
    | none => some v
    | some w => if tb w < tb v then some w else some v

/-- The main loop of `kahnSort`: repeatedly pop a ready node and append
it; `n` iterations suffice since each one emits a fresh node. -/
def kahnLoop (n : Nat) (edges : List (Nat × Nat)) (tb : Nat → Nat) :
    Nat → List Nat → List Nat
  | 0, emitted => emitted
  | fuel + 1, emitted =>
    match pickMinBy tb (kahnCandidates n edges emitted) with
    | none => emitted
    | some v => kahnLoop n edges tb fuel (emitted ++ [v])

/-- Model of `ModListGenerator::kahnSort`: the main loop, then the
cycle-leftover nodes appended in tie-breaker order. -/
def kahnSort (n : Nat) (edges : List (Nat × Nat)) (tb : Nat → Nat) :
    List Nat :=
  let main := kahnLoop n edges tb n []
  main ++ ((List.range n).filter (fun v => !main.contains v)).mergeSort
    (fun a b => decide (tb a ≤ tb b))

/-- The folder name used for output lines (`modFolders[i]`), falling
back to the display name. -/
def folderOf (mods : List SortModInfo) (i : Nat) : Str :=
  match mods[i]? with
  | some m => if m.folderName.isEmpty then m.name else m.folderName
  | none => []

/-- The final pass of `generateModOrderCombined`: Kahn's algorithm over
the rule edges with the ensemble combined rank as tie-breaker.  The
combined rank (weighted double average of the DFS, first-Kahn, plugin
and collection ranks, re-ranked to integers) reads the filesystem
(plugin positions inside mod folders) and uses IEEE doubles, so it
enters the model as an opaque tie-breaker function; the ordering
property claimed holds for every tie-breaker. -/
def finalIndices (mods : List SortModInfo) (rules : List ModRule)
    (combinedRank : Nat → Nat) : List Nat :=
  kahnSort mods.length (resolvedEdges mods rules) combinedRank

/-- Model of `generateModOrderCombined`: the final Kahn order reversed
(MO2: top = winner) mapped to folder names. -/
def generateModOrderCombined (mods : List SortModInfo)
    (rules : List ModRule) (combinedRank : Nat → Nat) : List Str :=
  ((finalIndices mods rules combinedRank).reverse).map (folderOf mods)

/-- Model of `ModListGenerator::writeModList`: two comment lines, then
one `+folderName` line per mod. -/
def writeModListLines (modOrder : List Str) : List Str :=
  "# This file was automatically generated by NexusBridge".toList ::
    "# Mod priority: Top = Winner, Bottom = Loser".toList ::
    modOrder.map (fun f => '+' :: f)

-- ===========================================================================
-- Theorems: C1 (modlist order respects mod rules)
-- ===========================================================================

theorem pickMinBy_mem (tb : Nat → Nat) :
    ∀ (l : List Nat) (v : Nat), pickMinBy tb l = some v → v ∈ l := by
  intro l
  induction l with
  | nil => intro v h; simp [pickMinBy] at h
  | cons a rest ih =>
    intro v h
    rw [pickMinBy] at h
    cases hr : pickMinBy tb rest with
    | none =>
      rw [hr] at h
      injection h with h
      exact h ▸ List.mem_cons_self _ _
    | some w =>
      rw [hr] at h
      dsimp only at h
      by_cases hlt : tb w < tb a
      · rw [if_pos hlt] at h
        injection h with h
        exact List.mem_cons_of_mem _ (h ▸ ih w hr)
      · rw [if_neg hlt] at h
        injection h with h
        exact h ▸ List.mem_cons_self _ _

theorem pickMinBy_isSome (tb : Nat → Nat) :
    ∀ (l : List Nat), l ≠ [] → ∃ v, pickMinBy tb l = some v := by
  intro l hl
  cases l with
  | nil => exact absurd rfl hl
  | cons a rest =>
    rw [pickMinBy]
    cases pickMinBy tb rest with
    | none => exact ⟨a, rfl⟩
    | some w =>
      by_cases h : tb w < tb a
      · exact ⟨w, by dsimp only; rw [if_pos h]⟩
      · exact ⟨a, by dsimp only; rw [if_neg h]⟩

theorem kahnCandidates_spec {n : Nat} {edges : List (Nat × Nat)}
    {E : List Nat} {v : Nat} (h : v ∈ kahnCandidates n edges E) :
    v < n ∧ v ∉ E ∧ ∀ e ∈ edges, e.2 = v → e.1 ∈ E := by
  rw [kahnCandidates, List.mem_filter] at h
  obtain ⟨hvr, hcond⟩ := h
  rw [Bool.and_eq_true] at hcond
  refine ⟨List.mem_range.mp hvr, by simpa using hcond.1, ?_⟩
  intro e he hev
  have hall := List.all_eq_true.mp hcond.2 e he
  rw [Bool.or_eq_true] at hall
  rcases hall with hne | hc
  · exact absurd hev (by simpa using hne)
  · simpa using hc

/-- Invariant of the Kahn main loop: emitted nodes are distinct, in
range, and every emitted edge target has its source emitted earlier. -/
def KahnInv (n : Nat) (edges : List (Nat × Nat)) (E : List Nat) : Prop :=
  E.Nodup ∧ (∀ v ∈ E, v < n) ∧
    (∀ e ∈ edges, e.2 ∈ E →
      e.1 ∈ E ∧ E.indexOf e.1 < E.indexOf e.2)

theorem KahnInv_append {n : Nat} {edges : List (Nat × Nat)} {E : List Nat}
    {v : Nat} (hI : KahnInv n edges E) (hvn : v < n) (hvE : v ∉ E)
    (hready : ∀ e ∈ edges, e.2 = v → e.1 ∈ E) :
    KahnInv n edges (E ++ [v]) := by
  obtain ⟨hnd, hb, htopo⟩ := hI
  refine ⟨?_, ?_, ?_⟩
  · rw [List.nodup_append]
    refine ⟨hnd, List.nodup_singleton v, ?_⟩
    intro a haE hav
    rw [List.mem_singleton] at hav
    subst hav
    exact hvE haE
  · intro x hx
    rcases List.mem_append.mp hx with h | h
    · exact hb x h
    · rw [List.mem_singleton] at h
      subst h
      exact hvn
  · intro e he h2
    rcases List.mem_append.mp h2 with h2E | h2v
    · obtain ⟨h1E, hlt⟩ := htopo e he h2E
      refine ⟨List.mem_append_left _ h1E, ?_⟩
      rw [List.indexOf_append_of_mem h1E, List.indexOf_append_of_mem h2E]
      exact hlt
    · rw [List.mem_singleton] at h2v
      have h1E : e.1 ∈ E := hready e he h2v
      refine ⟨List.mem_append_left _ h1E, ?_⟩
      rw [List.indexOf_append_of_mem h1E, h2v,
        List.indexOf_append_of_not_mem hvE]
      have := List.indexOf_lt_length.mpr h1E
      simp
      omega

theorem kahnLoop_inv (n : Nat) (edges : List (Nat × Nat)) (tb : Nat → Nat) :
    ∀ (fuel : Nat) (E : List Nat), KahnInv n edges E →
      KahnInv n edges (kahnLoop n edges tb fuel E) := by
  intro fuel
  induction fuel with
  | zero => intro E h; exact h
  | succ f ih =>
    intro E h
    rw [kahnLoop]
    cases hp : pickMinBy tb (kahnCandidates n edges E) with
    | none => exact h
    | some v =>
      obtain ⟨hvn, hvE, hready⟩ :=
        kahnCandidates_spec (pickMinBy_mem tb _ v hp)
      exact ih _ (KahnInv_append h hvn hvE hready)

theorem kahnLoop_mem_mono (n : Nat) (edges : List (Nat × Nat))
    (tb : Nat → Nat) :
    ∀ (fuel : Nat) (E : List Nat) (x : Nat), x ∈ E →
      x ∈ kahnLoop n edges tb fuel E := by
  intro fuel
  induction fuel with
  | zero => intro E x h; exact h
  | succ f ih =>
    intro E x h
    rw [kahnLoop]
    cases pickMinBy tb (kahnCandidates n edges E) with
    | none => exact h
    | some v => exact ih _ x (List.mem_append_left _ h)

theorem nodup_subset_full {n : Nat} {E : List Nat} (hnd : E.Nodup)
    (hb : ∀ v ∈ E, v < n) (hlen : n ≤ E.length) : ∀ v < n, v ∈ E := by
  intro v hv
  by_contra hvE
  have hsub : E.toFinset ⊆ (Finset.range n).erase v := by
    intro x hx
    rw [List.mem_toFinset] at hx
    refine Finset.mem_erase.mpr ⟨?_, Finset.mem_range.mpr (hb x hx)⟩
    rintro rfl
    exact hvE hx
  have hcard : E.toFinset.card = E.length := List.toFinset_card_of_nodup hnd
  have hle := Finset.card_le_card hsub
  rw [hcard, Finset.card_erase_of_mem (Finset.mem_range.mpr hv),
    Finset.card_range] at hle
  omega

theorem kahnLoop_total (n : Nat) (edges : List (Nat × Nat))
    (tb r : Nat → Nat) (hr : ∀ e ∈ edges, r e.1 < r e.2)
    (hb1 : ∀ e ∈ edges, e.1 < n) :
    ∀ (fuel : Nat) (E : List Nat), KahnInv n edges E →
      n ≤ E.length + fuel → ∀ v < n, v ∈ kahnLoop n edges tb fuel E := by
  intro fuel
  induction fuel with
  | zero =>
    intro E hI hlen v hv
    exact nodup_subset_full hI.1 hI.2.1 (by omega) v hv
  | succ f ih =>
    intro E hI hlen v hv
    by_cases hall : ∀ u, u < n → u ∈ E
    · exact kahnLoop_mem_mono n edges tb (f + 1) E v (hall v hv)
    · push_neg at hall
      obtain ⟨u, hun, huE⟩ := hall
      have hUne : (List.range n).filter (fun x => !E.contains x) ≠ [] := by
        intro hnil
        have hmem : u ∈ (List.range n).filter (fun x => !E.contains x) := by
          rw [List.mem_filter]
          exact ⟨List.mem_range.mpr hun, by simp [huE]⟩
        rw [hnil] at hmem
        exact List.not_mem_nil u hmem
      obtain ⟨m, hm⟩ : ∃ m,
          m ∈ ((List.range n).filter (fun x => !E.contains x)).argmin r := by
        cases ham :
            ((List.range n).filter (fun x => !E.contains x)).argmin r with
        | none => exact absurd (List.argmin_eq_none.mp ham) hUne
        | some m => exact ⟨m, rfl⟩
      have hmU := List.argmin_mem hm
      have hmmin : ∀ a ∈ (List.range n).filter (fun x => !E.contains x),
          r m ≤ r a := fun a ha => List.le_of_mem_argmin ha hm
      rw [List.mem_filter] at hmU
      obtain ⟨hmr, hmc⟩ := hmU
      have hmn : m < n := List.mem_range.mp hmr
      have hmE : m ∉ E := by simpa using hmc
      have hmready : kahnReady edges E m = true := by
        rw [kahnReady, List.all_eq_true]
        intro e he
        rw [Bool.or_eq_true]
        by_cases hev : e.2 = m
        · right
          by_cases h1E : e.1 ∈ E
          · simpa using h1E
          · exfalso
            have h1U : e.1 ∈
                (List.range n).filter (fun x => !E.contains x) := by
              rw [List.mem_filter]
              exact ⟨List.mem_range.mpr (hb1 e he), by simp [h1E]⟩
            have hlt : r e.1 < r m := hev ▸ hr e he
            exact absurd (hmmin _ h1U) (by omega)
        · left
          simpa using hev
      have hmcand : m ∈ kahnCandidates n edges E := by
        rw [kahnCandidates, List.mem_filter]
        refine ⟨hmr, ?_⟩
        rw [Bool.and_eq_true]
        exact ⟨by simpa using hmE, hmready⟩
      have hcne : kahnCandidates n edges E ≠ [] := by
        intro hnil
        rw [hnil] at hmcand
        exact List.not_mem_nil m hmcand
      obtain ⟨w, hw⟩ := pickMinBy_isSome tb _ hcne
      rw [kahnLoop, hw]
      obtain ⟨hwn, hwE, hwready⟩ :=
        kahnCandidates_spec (pickMinBy_mem tb _ w hw)
      refine ih (E ++ [w]) (KahnInv_append hI hwn hwE hwready) ?_ v hv
      rw [List.length_append]
      simp
      omega

theorem kahnSort_spec (n : Nat) (edges : List (Nat × Nat))
    (tb r : Nat → Nat) (hr : ∀ e ∈ edges, r e.1 < r e.2)
    (hb1 : ∀ e ∈ edges, e.1 < n) (hb2 : ∀ e ∈ edges, e.2 < n) :
    (kahnSort n edges tb).Nodup ∧
    (∀ v, v ∈ kahnSort n edges tb ↔ v < n) ∧
    (∀ e ∈ edges, (kahnSort n edges tb).indexOf e.1 <
      (kahnSort n edges tb).indexOf e.2) := by
  have hinv := kahnLoop_inv n edges tb n []
    ⟨List.nodup_nil, by simp, by simp⟩
  have htotal := kahnLoop_total n edges tb r hr hb1 n []
    ⟨List.nodup_nil, by simp, by simp⟩ (by simp)
  have hleft : (List.range n).filter
      (fun v => !(kahnLoop n edges tb n []).contains v) = [] := by
    rw [List.filter_eq_nil]
    intro a ha
    have hmem : a ∈ kahnLoop n edges tb n [] :=
      htotal a (List.mem_range.mp ha)
    simp [hmem]
  have hks : kahnSort n edges tb = kahnLoop n edges tb n [] := by
    rw [kahnSort, hleft]
    simp
  refine ⟨hks ▸ hinv.1, ?_, ?_⟩
  · intro v
    constructor
    · intro hv
      rw [hks] at hv
      exact hinv.2.1 v hv
    · intro hv
      rw [hks]
      exact htotal v hv
  · intro e he
    have h2 : e.2 ∈ kahnLoop n edges tb n [] := htotal e.2 (hb2 e he)
    have := hinv.2.2 e he h2
    rw [hks]
    exact this.2

theorem logicalNameToIdx_lt (mods : List SortModInfo) (key : Str)
    (i : Nat) (h : logicalNameToIdx mods key = some i) :
    i < mods.length := by
  rw [logicalNameToIdx] at h
  cases hf : mods.enum.reverse.find? (fun p => modKey p.2 == key) with
  | none => rw [hf] at h; cases h
  | some p =>
    rw [hf] at h
    injection h with h
    have hp : p ∈ mods.enum.reverse := List.mem_of_find?_eq_some hf
    rw [List.mem_reverse] at hp
    have hg : mods[p.1]? = some p.2 := List.mem_enum_iff_getElem?.mp hp
    have hlt : p.1 < mods.length := by
      by_contra hge
      rw [List.getElem?_eq_none (by omega)] at hg
      cases hg
    exact h ▸ hlt

theorem resolveRule_lt (mods : List SortModInfo) (rule : ModRule)
    (s t : Nat) (h : resolveRule mods rule = some (s, t)) :
    s < mods.length ∧ t < mods.length := by
  rw [resolveRule] at h
  cases h1 : logicalNameToIdx mods
      (resolveKey mods rule.sourceLogicalName rule.sourceMd5) with
  | none => rw [h1] at h; cases h
  | some a =>
    cases h2 : logicalNameToIdx mods
        (resolveKey mods rule.referenceLogicalName rule.referenceMd5) with
    | none => rw [h1, h2] at h; cases h
    | some b =>
      rw [h1, h2] at h
      injection h with h
      injection h with ha hb
      subst ha
      subst hb
      exact ⟨logicalNameToIdx_lt mods _ _ h1,
        logicalNameToIdx_lt mods _ _ h2⟩

theorem resolvedEdges_bound (mods : List SortModInfo)
    (rules : List ModRule) :
    ∀ e ∈ resolvedEdges mods rules,
      e.1 < mods.length ∧ e.2 < mods.length := by
  intro e he
  rw [resolvedEdges, List.mem_filterMap] at he
  obtain ⟨rule, hrl, hre⟩ := he
  rw [ruleEdge] at hre
  cases hres : resolveRule mods rule with
  | none => rw [hres] at hre; cases hre
  | some p =>
    obtain ⟨s, t⟩ := p
    rw [hres] at hre
    dsimp only at hre
    have hb := resolveRule_lt mods rule s t hres
    by_cases h1 : (rule.type == "before".toList) = true
    · rw [if_pos h1] at hre
      injection hre with hre
      rw [← hre]
      exact hb
    · rw [if_neg h1] at hre
      by_cases h2 : (rule.type == "after".toList) = true
      · rw [if_pos h2] at hre
        injection hre with hre
        rw [← hre]
        exact ⟨hb.2, hb.1⟩
      · rw [if_neg h2] at hre
        cases hre

theorem indexOf_reverse_of_nodup {l : List Nat} (hnd : l.Nodup) {x : Nat}
    (hx : x ∈ l) :
    l.reverse.indexOf x = l.length - 1 - l.indexOf x := by
  have hi : l.indexOf x < l.length := List.indexOf_lt_length.mpr hx
  have hxrev : x ∈ l.reverse := List.mem_reverse.mpr hx
  have hj : l.reverse.indexOf x < l.reverse.length :=
    List.indexOf_lt_length.mpr hxrev
  have hj' : l.reverse.indexOf x < l.length := by
    rwa [List.length_reverse] at hj
  have hk : l.length - 1 - l.indexOf x < l.reverse.length := by
    rw [List.length_reverse]
    omega
  have hget1 : l.reverse.get ⟨l.reverse.indexOf x, hj⟩ = x :=
    List.indexOf_get hj
  have hget2 : l.reverse.get ⟨l.length - 1 - l.indexOf x, hk⟩ = x := by
    rw [List.get_reverse l (l.indexOf x) hk hi]
    exact List.indexOf_get hi
  have heq : l.reverse.get ⟨l.reverse.indexOf x, hj⟩ =
      l.reverse.get ⟨l.length - 1 - l.indexOf x, hk⟩ := by
    rw [hget1, hget2]
  have hfin := (List.Nodup.get_inj_iff (List.nodup_reverse.mpr hnd)).mp heq
  have := Fin.val_eq_of_eq hfin
  simpa using this

/-- Claim C1: for every collection whose resolved mod-rule graph is
acyclic (expressed by a ranking function on the resolved edges, which
for a finite graph exists exactly when the graph is acyclic), the order
written to modlist.txt by `generateModOrderCombined` + `writeModList`
satisfies every resolving `ModRule`, for every ensemble tie-breaker: for
a `before` rule the source's `+folder` line is strictly below the
reference's (lower priority), for an `after` rule strictly above. -/
theorem modlist_respects_modrules (mods : List SortModInfo)
    (rules : List ModRule) (combinedRank : Nat → Nat)
    (hacyc : ∃ r : Nat → Nat, ∀ e ∈ resolvedEdges mods rules,
      r e.1 < r e.2)
    (rule : ModRule) (hrule : rule ∈ rules) (s t : Nat)
    (hres : resolveRule mods rule = some (s, t)) :
    (rule.type = "before".toList →
      ((finalIndices mods rules combinedRank).reverse.indexOf t <
        (finalIndices mods rules combinedRank).reverse.indexOf s ∧
      (writeModListLines
          (generateModOrderCombined mods rules combinedRank)).get?
        (2 + (finalIndices mods rules combinedRank).reverse.indexOf s) =
        some ('+' :: folderOf mods s) ∧
      (writeModListLines
          (generateModOrderCombined mods rules combinedRank)).get?
        (2 + (finalIndices mods rules combinedRank).reverse.indexOf t) =
        some ('+' :: folderOf mods t))) ∧
    (rule.type = "after".toList →
      ((finalIndices mods rules combinedRank).reverse.indexOf s <
        (finalIndices mods rules combinedRank).reverse.indexOf t ∧
      (writeModListLines
          (generateModOrderCombined mods rules combinedRank)).get?
        (2 + (finalIndices mods rules combinedRank).reverse.indexOf s) =
        some ('+' :: folderOf mods s) ∧
      (writeModListLines
          (generateModOrderCombined mods rules combinedRank)).get?
        (2 + (finalIndices mods rules combinedRank).reverse.indexOf t) =
        some ('+' :: folderOf mods t))) := by
  obtain ⟨r, hr⟩ := hacyc
  have hb1 := fun e he => (resolvedEdges_bound mods rules e he).1
  have hb2 := fun e he => (resolvedEdges_bound mods rules e he).2
  obtain ⟨hnd, hmem, htopo⟩ := kahnSort_spec mods.length
    (resolvedEdges mods rules) combinedRank r hr hb1 hb2
  have hfi : kahnSort mods.length (resolvedEdges mods rules) combinedRank =
      finalIndices mods rules combinedRank := rfl
  rw [hfi] at hnd hmem htopo
  have hbounds := resolveRule_lt mods rule s t hres
  -- shared facts about the final order
  have hslen : s < mods.length := hbounds.1
  have htlen : t < mods.length := hbounds.2
  have hsmem : s ∈ finalIndices mods rules combinedRank :=
    (hmem s).mpr hslen
  have htmem : t ∈ finalIndices mods rules combinedRank :=
    (hmem t).mpr htlen
  have hlen : ∀ x ∈ finalIndices mods rules combinedRank,
      (finalIndices mods rules combinedRank).indexOf x <
        (finalIndices mods rules combinedRank).length :=
    fun x hx => List.indexOf_lt_length.mpr hx
  -- the +folder line of any index x sits 2 + reversed position deep
  have hline : ∀ x ∈ finalIndices mods rules combinedRank,
      (writeModListLines
          (generateModOrderCombined mods rules combinedRank)).get?
        (2 + (finalIndices mods rules combinedRank).reverse.indexOf x) =
        some ('+' :: folderOf mods x) := by
    intro x hx
    have hxrev : x ∈ (finalIndices mods rules combinedRank).reverse :=
      List.mem_reverse.mpr hx
    have hxr : (finalIndices mods rules combinedRank).reverse.indexOf x <
        (finalIndices mods rules combinedRank).reverse.length :=
      List.indexOf_lt_length.mpr hxrev
    rw [writeModListLines,
      show 2 + (finalIndices mods rules combinedRank).reverse.indexOf x =
        (finalIndices mods rules combinedRank).reverse.indexOf x + 1 + 1
        from by omega,
      List.get?_cons_succ, List.get?_cons_succ, generateModOrderCombined,
      List.map_map, List.get?_map, List.indexOf_get? hxrev]
    rfl
  -- the strict position comparisons
  have hcmp : ∀ u v : Nat, (u, v) ∈ resolvedEdges mods rules →
      (finalIndices mods rules combinedRank).reverse.indexOf v <
        (finalIndices mods rules combinedRank).reverse.indexOf u := by
    intro u v huv
    have humem : u ∈ finalIndices mods rules combinedRank :=
      (hmem u).mpr (hb1 _ huv)
    have hvmem : v ∈ finalIndices mods rules combinedRank :=
      (hmem v).mpr (hb2 _ huv)
    have hlt := htopo (u, v) huv
    dsimp only at hlt
    rw [indexOf_reverse_of_nodup hnd humem,
      indexOf_reverse_of_nodup hnd hvmem]
    have hu := hlen u humem
    have hv := hlen v hvmem
    omega
  constructor
  · intro hty
    have hedge : (s, t) ∈ resolvedEdges mods rules := by
      rw [resolvedEdges, List.mem_filterMap]
      refine ⟨rule, hrule, ?_⟩
      rw [ruleEdge, hres]
      dsimp only
      rw [if_pos (by rw [hty]; decide)]
    exact ⟨hcmp s t hedge, hline s hsmem, hline t htmem⟩
  · intro hty
    have hedge : (t, s) ∈ resolvedEdges mods rules := by
      rw [resolvedEdges, List.mem_filterMap]
      refine ⟨rule, hrule, ?_⟩
      rw [ruleEdge, hres]
      dsimp only
      have hnb : (rule.type == "before".toList) = false := by
        rw [hty]
        decide
      rw [hnb]
      rw [if_neg (by simp), if_pos (by rw [hty]; decide)]
    exact ⟨hcmp t s hedge, hline s hsmem, hline t htmem⟩

/-- Concrete two-mod collection for the C1 witness. -/
def c1mods : List SortModInfo :=
  [⟨"A".toList, "a".toList, [], "FA".toList⟩,
   ⟨"B".toList, "b".toList, [], "FB".toList⟩]

/-- Concrete `before` rule for the C1 witness: mod `a` before mod `b`. -/
def c1rule : ModRule :=
  ⟨"before".toList, [], "a".toList, [], "b".toList⟩

/-- Witness for `modlist_respects_modrules` on the two-mod collection. -/
theorem modlist_respects_modrules_witness :
    (finalIndices c1mods [c1rule] (fun _ => 0)).reverse.indexOf 1 <
      (finalIndices c1mods [c1rule] (fun _ => 0)).reverse.indexOf 0 ∧
    (writeModListLines
        (generateModOrderCombined c1mods [c1rule] (fun _ => 0))).get?
      (2 + (finalIndices c1mods [c1rule] (fun _ => 0)).reverse.indexOf 0) =
      some ('+' :: folderOf c1mods 0) ∧
    (writeModListLines
        (generateModOrderCombined c1mods [c1rule] (fun _ => 0))).get?
      (2 + (finalIndices c1mods [c1rule] (fun _ => 0)).reverse.indexOf 1) =
      some ('+' :: folderOf c1mods 1) :=
  (modlist_respects_modrules c1mods [c1rule] (fun _ => 0)
    ⟨fun i => i, by decide⟩ c1rule (List.mem_singleton_self _) 0 1
    (by decide)).1 rfl

end NexusBridge
